import Mathlib

/-!
# Verification of the EGG `Heap`/`Disposer` ownership subsystem

Shallow embedding of the repository (vabold/EGG): the NW4R intrusive
doubly-linked list (`nw4r/ut/list.h`), the `EGG::Disposer` record
(`egg/core/eggDisposer.h`) and the `EGG::Heap` children list
(`egg/core/eggHeap.h`).

Objects are identified by natural numbers (their addresses).  The embedded
per-object `nw4r::ut::Link` fields are modelled as a total map from object
identifiers to links; an object that is not linked anywhere simply has an
irrelevant entry in the map.  Null pointers are `Option.none`.

The repository's headers declare `List_Append`, `List_Remove`,
`Heap::findContainHeap`, the `Disposer` constructor/destructor and the heap
teardown walk but do not contain their bodies; those operations are modelled
from the specification (each such definition says so in its doc comment).
The struct layouts (`List`, `Link`, `Disposer`, `Heap`) are taken from the
headers.
-/

set_option maxHeartbeats 1000000

/-- Layout of `nw4r::ut::Link` (src/include/nw4r/ut/list.h lines 19-23): the per-object
embedded link, holding the previous and next *object* pointers. -/
structure Link where
  prevObject : Option Nat
  nextObject : Option Nat
  deriving Repr, DecidableEq

/-- Layout of `nw4r::ut::List` (src/include/nw4r/ut/list.h lines 11-17): the list
header with head/tail object pointers, the element count (`u16 numObjects`)
and the byte offset of the embedded link (`u16 offset`, inert data for the
operations once the link map abstracts the offset arithmetic). -/
structure UtList where
  headObject : Option Nat
  tailObject : Option Nat
  numObjects : Nat
  offset : Nat
  deriving Repr, DecidableEq

/-- A list header together with the embedded link fields of all objects:
the state a `List_Append`/`List_Remove` call reads and writes. -/
structure ListWorld where
  list : UtList
  links : Nat → Link

/-- Point update of the link map (one object's embedded link is written). -/
def setLink (links : Nat → Link) (z : Nat) (lk : Link) : Nat → Link :=
  fun w => if w = z then lk else links w

/-- Modelled from the spec: the body of `List_Append` (declared at
src/include/nw4r/ut/list.h line 25, not present in src/).  §4.1: "inserts
`object` at the tail.  Effect: sets `object`'s embedded link's previous to
the former tail (or none if list was empty), sets former tail's next to
`object` (or sets head if list was empty), sets list's tail to `object`,
increments count."  The appended object's next pointer is terminal (none),
as required by the traversal/acyclicity invariant of §3. -/
def List_Append (s : ListWorld) (y : Nat) : ListWorld :=
  match s.list.tailObject with
  | none =>
      { list := { s.list with
                  headObject := some y,
                  tailObject := some y,
                  numObjects := s.list.numObjects + 1 },
        links := setLink s.links y { prevObject := none, nextObject := none } }
  | some t =>
      let links1 := setLink s.links y { prevObject := some t, nextObject := none }
      { list := { s.list with
                  tailObject := some y,
                  numObjects := s.list.numObjects + 1 },
        links := setLink links1 t { links1 t with nextObject := some y } }

/-- Modelled from the spec: the body of `List_Remove` (declared at
src/include/nw4r/ut/list.h line 26, not present in src/).  §4.1: "unlinks
`object` from wherever it currently sits (head, tail, middle, or sole
element).  Effect: splices neighbors together, updates head/tail pointers
as needed, decrements count, clears `object`'s embedded link." -/
def List_Remove (s : ListWorld) (x : Nat) : ListWorld :=
  let lk := s.links x
  let head1 : Option Nat :=
    match lk.prevObject with
    | none => lk.nextObject
    | some _ => s.list.headObject
  let linksA : Nat → Link :=
    match lk.prevObject with
    | none => s.links
    | some p => setLink s.links p { s.links p with nextObject := lk.nextObject }
  let tail1 : Option Nat :=
    match lk.nextObject with
    | none => lk.prevObject
    | some _ => s.list.tailObject
  let linksB : Nat → Link :=
    match lk.nextObject with
    | none => linksA
    | some nx => setLink linksA nx { linksA nx with prevObject := lk.prevObject }
  { list := { s.list with
              headObject := head1,
              tailObject := tail1,
              numObjects := s.list.numObjects - 1 },
    links := setLink linksB x { prevObject := none, nextObject := none } }

/-- Doubly-linked segment representation: `dllseg links p f l n xs` states
that the objects `xs`, chained through the link map `links`, form a segment
whose first-object pointer is `f`, whose first element's previous pointer is
`p`, whose last-element pointer is `l` (equal to `p` when the segment is
empty) and whose last element's next pointer is `n` (equal to `f` when the
segment is empty). -/
def dllseg (links : Nat → Link) : Option Nat → Option Nat → Option Nat → Option Nat → List Nat → Prop
  | p, f, l, n, [] => f = n ∧ l = p
  | p, f, l, n, x :: xs =>
      f = some x ∧ (links x).prevObject = p ∧
        dllseg links (some x) (links x).nextObject l n xs

/-- Representation invariant of a list state: `xs` is the sequence of
currently linked objects in order; the count equals its length, head and
tail match its ends, and the link fields chain it doubly from `none` to
`none`. -/
def ListRepr (s : ListWorld) (xs : List Nat) : Prop :=
  xs.Nodup ∧
  s.list.numObjects = xs.length ∧
  s.list.headObject = xs.head? ∧
  s.list.tailObject = xs.getLast? ∧
  dllseg s.links none s.list.headObject s.list.tailObject none xs

/-- Forward traversal from a starting pointer, following embedded `next`
references, bounded by a fuel (`numObjects` at the call site). -/
def traverseAux (links : Nat → Link) : Nat → Option Nat → List Nat
  | 0, _ => []
  | _ + 1, none => []
  | n + 1, some x => x :: traverseAux links n (links x).nextObject

/-- Forward traversal of a list: from `headObject`, following `next`,
reading at most `numObjects` objects. -/
def traverse (s : ListWorld) : List Nat :=
  traverseAux s.links s.list.numObjects s.list.headObject

/-- Iteration of the next pointer: `iterNext links n cur` is the pointer reached from `cur` after following
the embedded `next` reference `n` times (staying at `none` once reached). -/
def iterNext (links : Nat → Link) : Nat → Option Nat → Option Nat
  | 0, cur => cur
  | _ + 1, none => none
  | n + 1, some x => iterNext links n (links x).nextObject

/-- Modelled from the spec: a freshly initialised list (head and tail null,
count zero, the given link-field offset); the embedded links of yet-unlinked
objects are arbitrary (`links0`). -/
def initList (links0 : Nat → Link) (off : Nat) : ListWorld :=
  { list := ⟨none, none, 0, off⟩, links := links0 }

/-- Valid operation sequences: `Reach s xs` holds when the list state `s` is
obtained from a freshly initialised list by `List_Append` calls on objects
not currently linked and `List_Remove` calls on current members, and `xs` is
the corresponding abstract sequence (append order, with removed objects
erased). -/
inductive Reach : ListWorld → List Nat → Prop
  | init (links0 : Nat → Link) (off : Nat) :
      Reach (initList links0 off) []
  | append {s : ListWorld} {xs : List Nat} (y : Nat) :
      Reach s xs → y ∉ xs → Reach (List_Append s y) (xs ++ [y])
  | remove {s : ListWorld} {xs : List Nat} (x : Nat) :
      Reach s xs → x ∈ xs → Reach (List_Remove s x) (xs.erase x)

/-! ## Basic lemmas about the link map and segments -/

theorem setLink_self (links : Nat → Link) (z : Nat) (lk : Link) :
    setLink links z lk z = lk := by
  simp [setLink]

theorem setLink_ne (links : Nat → Link) (z : Nat) (lk : Link) {w : Nat} (h : w ≠ z) :
    setLink links z lk w = links w := by
  simp [setLink, h]

theorem dllseg_nil_iff {links : Nat → Link} {p f l n : Option Nat} :
    dllseg links p f l n [] ↔ (f = n ∧ l = p) := Iff.rfl

theorem dllseg_cons_iff {links : Nat → Link} {p f l n : Option Nat} {x : Nat} {xs : List Nat} :
    dllseg links p f l n (x :: xs) ↔
      (f = some x ∧ (links x).prevObject = p ∧
        dllseg links (some x) (links x).nextObject l n xs) := Iff.rfl

theorem dllseg_singleton {links : Nat → Link} {p n : Option Nat} {x : Nat}
    (hp : (links x).prevObject = p) (hn : (links x).nextObject = n) :
    dllseg links p (some x) (some x) n [x] := by
  rw [dllseg_cons_iff, dllseg_nil_iff]
  exact ⟨rfl, hp, hn, rfl⟩

theorem dllseg_congr {links links1 : Nat → Link} {p f l n : Option Nat} {xs : List Nat}
    (hagree : ∀ z ∈ xs, links1 z = links z) (h : dllseg links p f l n xs) :
    dllseg links1 p f l n xs := by
  induction xs generalizing p f with
  | nil => exact h
  | cons x xs ih =>
    obtain ⟨hf, hp, hrest⟩ := h
    have hx : links1 x = links x := hagree x (by simp)
    refine ⟨hf, by rw [hx]; exact hp, ?_⟩
    rw [hx]
    exact ih (fun z hz => hagree z (by simp [hz])) hrest

theorem dllseg_append {links : Nat → Link} {p f l n l1 n1 : Option Nat} {xs ys : List Nat}
    (h1 : dllseg links p f l n xs) (h2 : dllseg links l n l1 n1 ys) :
    dllseg links p f l1 n1 (xs ++ ys) := by
  induction xs generalizing p f with
  | nil =>
    obtain ⟨hf, hl⟩ := h1
    rw [List.nil_append, hf, ← hl]
    exact h2
  | cons x xs ih =>
    obtain ⟨hf, hp, hrest⟩ := h1
    exact ⟨hf, hp, ih hrest⟩

theorem dllseg_split {links : Nat → Link} {p f l1 n1 : Option Nat} {xs ys : List Nat}
    (h : dllseg links p f l1 n1 (xs ++ ys)) :
    ∃ l n, dllseg links p f l n xs ∧ dllseg links l n l1 n1 ys := by
  induction xs generalizing p f with
  | nil => exact ⟨p, f, by simp [dllseg], h⟩
  | cons x xs ih =>
    obtain ⟨hf, hp, hrest⟩ := h
    obtain ⟨l, n, hx1, hx2⟩ := ih hrest
    exact ⟨l, n, ⟨hf, hp, hx1⟩, hx2⟩

theorem traverseAux_of_dllseg {links : Nat → Link} {p f l : Option Nat} {xs : List Nat}
    (h : dllseg links p f l none xs) : traverseAux links xs.length f = xs := by
  induction xs generalizing p f with
  | nil => rfl
  | cons x xs ih =>
    obtain ⟨hf, hp, hrest⟩ := h
    subst hf
    simp only [List.length_cons, traverseAux]
    rw [ih hrest]

theorem iterNext_of_dllseg {links : Nat → Link} {p f l : Option Nat} {xs : List Nat}
    (h : dllseg links p f l none xs) : iterNext links xs.length f = none := by
  induction xs generalizing p f with
  | nil =>
    obtain ⟨hf, _⟩ := h
    rw [hf]
    rfl
  | cons x xs ih =>
    obtain ⟨hf, hp, hrest⟩ := h
    subst hf
    exact ih hrest

theorem head?_append_left (xs ys : List Nat) (h : xs ≠ []) :
    (xs ++ ys).head? = xs.head? := by
  cases xs with
  | nil => exact absurd rfl h
  | cons a l => rfl

theorem getLast?_append_right (xs ys : List Nat) (h : ys ≠ []) :
    (xs ++ ys).getLast? = ys.getLast? := by
  rw [List.getLast?_append]
  cases hys : ys.getLast? with
  | none => exact absurd (List.getLast?_eq_none_iff.mp hys) h
  | some a => rfl

/-! ## Preservation of the representation invariant -/

theorem ListRepr_append {s : ListWorld} {xs : List Nat} {y : Nat}
    (h : ListRepr s xs) (hy : y ∉ xs) : ListRepr (List_Append s y) (xs ++ [y]) := by
  obtain ⟨hnd, hcount, hhead, htail, hseg⟩ := h
  rcases htl : s.list.tailObject with _ | t
  · -- the list was empty
    have hxe : xs = [] := by
      apply List.getLast?_eq_none_iff.mp
      rw [← htail, htl]
    subst hxe
    refine ⟨by simp, ?_, ?_, ?_, ?_⟩
    · simp only [List_Append, htl]
      simpa using hcount
    · simp [List_Append, htl]
    · simp [List_Append, htl]
    · simp [List_Append, htl, dllseg, setLink]
  · -- the list had a tail t
    have hmem : t ∈ xs := by
      apply List.mem_of_mem_getLast?
      rw [← htail, htl]
      rfl
    rcases List.eq_nil_or_concat xs with hxe | ⟨as, t2, hxs⟩
    · subst hxe; simp at hmem
    · rw [List.concat_eq_append] at hxs
      subst hxs
      have ht2 : t = t2 := by
        rw [List.getLast?_concat] at htail
        rw [htl] at htail
        exact Option.some_inj.mp htail
      subst ht2
      have hnd0 := hnd
      rw [List.nodup_append] at hnd
      obtain ⟨hnda, -, hdisj⟩ := hnd
      have htas : t ∉ as := fun h2 => hdisj h2 (by simp)
      have hyt : y ≠ t := fun he => hy (he ▸ hmem)
      have hyas : y ∉ as := fun h2 => hy (by simp [h2])
      obtain ⟨l2, n2, hseg1, hseg2⟩ := dllseg_split hseg
      simp only [dllseg] at hseg2
      obtain ⟨hn2, hpt, hnt, hlt⟩ := hseg2
      rw [hn2] at hseg1
      -- component facts about the appended state
      have hhead1 : (List_Append s y).list.headObject = s.list.headObject := by
        simp [List_Append, htl]
      have htail1 : (List_Append s y).list.tailObject = some y := by
        simp [List_Append, htl]
      have hnum1 : (List_Append s y).list.numObjects = s.list.numObjects + 1 := by
        simp [List_Append, htl]
      have hlky : (List_Append s y).links y = ⟨some t, none⟩ := by
        simp [List_Append, htl, setLink, hyt]
      have hlkt_prev : ((List_Append s y).links t).prevObject = l2 := by
        simp [List_Append, htl, setLink, hyt, Ne.symm hyt]
        exact hpt
      have hlkt_next : ((List_Append s y).links t).nextObject = some y := by
        simp [List_Append, htl, setLink]
      have hlkz : ∀ z ∈ as, (List_Append s y).links z = s.links z := by
        intro z hz
        have hzt : z ≠ t := fun he => htas (he ▸ hz)
        have hzy : z ≠ y := fun he => hyas (he ▸ hz)
        simp [List_Append, htl, setLink, hzt, hzy]
      refine ⟨?_, ?_, ?_, ?_, ?_⟩
      · rw [List.nodup_append]
        refine ⟨hnd0, by simp, ?_⟩
        intro a ha hay
        rw [List.mem_singleton] at hay
        subst hay
        exact hy ha
      · rw [hnum1, hcount]
        simp
      · rw [hhead1, head?_append_left _ _ (by simp), hhead]
      · rw [htail1, List.getLast?_concat]
      · rw [hhead1, htail1]
        have e1 : dllseg (List_Append s y).links none s.list.headObject l2 (some t) as :=
          dllseg_congr hlkz hseg1
        have e2 : dllseg (List_Append s y).links l2 (some t) (some t) (some y) [t] :=
          dllseg_singleton hlkt_prev hlkt_next
        have e3 : dllseg (List_Append s y).links (some t) (some y) (some y) none [y] :=
          dllseg_singleton (by rw [hlky]) (by rw [hlky])
        exact dllseg_append (dllseg_append e1 e2) e3

theorem ListRepr_remove {s : ListWorld} {xs : List Nat} {x : Nat}
    (h : ListRepr s xs) (hx : x ∈ xs) : ListRepr (List_Remove s x) (xs.erase x) := by
  obtain ⟨hnd, hcount, hhead, htail, hseg⟩ := h
  obtain ⟨as, bs, hxs⟩ := List.append_of_mem hx
  subst hxs
  have hnd0 := hnd
  rw [List.nodup_middle, List.nodup_cons] at hnd0
  obtain ⟨hxab, hndab⟩ := hnd0
  have hxa : x ∉ as := fun h2 => hxab (List.mem_append_left _ h2)
  have hxb : x ∉ bs := fun h2 => hxab (List.mem_append_right _ h2)
  have hnda : as.Nodup := (List.nodup_append.mp hndab).1
  have hndb : bs.Nodup := (List.nodup_append.mp hndab).2.1
  have hdisj : as.Disjoint bs := (List.nodup_append.mp hndab).2.2
  have herase : (as ++ x :: bs).erase x = as ++ bs := by
    rw [List.erase_append_right _ hxa, List.erase_cons_head]
  rw [herase]
  have hnum : (List_Remove s x).list.numObjects = s.list.numObjects - 1 := by
    simp [List_Remove]
  obtain ⟨l1, n1, hseg1, hseg2⟩ := dllseg_split hseg
  rw [dllseg_cons_iff] at hseg2
  obtain ⟨hn1, hpx, hbs⟩ := hseg2
  rcases List.eq_nil_or_concat as with hae | ⟨as2, t, has⟩
  · -- x is the head of the list
    subst hae
    rw [dllseg_nil_iff] at hseg1
    obtain ⟨hheadx, hl1⟩ := hseg1
    rw [hn1] at hheadx
    have hprev : (s.links x).prevObject = none := by rw [hpx, hl1]
    cases bs with
    | nil =>
      -- x is the sole element
      rw [dllseg_nil_iff] at hbs
      obtain ⟨hnext, htailx⟩ := hbs
      refine ⟨by simp, ?_, ?_, ?_, ?_⟩
      · rw [hnum, hcount]; rfl
      · simp [List_Remove, hprev, hnext]
      · simp [List_Remove, hprev, hnext]
      · simp only [List.nil_append]
        rw [dllseg_nil_iff]
        constructor
        · simp [List_Remove, hprev, hnext]
        · simp [List_Remove, hprev, hnext]
    | cons b bs2 =>
      -- x is the head, with a successor b
      rw [dllseg_cons_iff] at hbs
      obtain ⟨hnext, hb_prev, hbs2⟩ := hbs
      have hbx : b ≠ x := fun he => hxb (by simp [he])
      have hbbs2 : b ∉ bs2 := (List.nodup_cons.mp hndb).1
      have hNb_prev : ((List_Remove s x).links b).prevObject = none := by
        simp [List_Remove, hprev, hnext, setLink, hbx]
      have hNb_next : ((List_Remove s x).links b).nextObject = (s.links b).nextObject := by
        simp [List_Remove, hprev, hnext, setLink, hbx]
      have hNz : ∀ z ∈ bs2, (List_Remove s x).links z = s.links z := by
        intro z hz
        have hzb : z ≠ b := fun he => hbbs2 (he ▸ hz)
        have hzx : z ≠ x := fun he => hxb (by simp [he ▸ hz])
        simp [List_Remove, hprev, hnext, setLink, hzb, hzx]
      have hNhead : (List_Remove s x).list.headObject = some b := by
        simp [List_Remove, hprev, hnext]
      have hNtail : (List_Remove s x).list.tailObject = s.list.tailObject := by
        simp [List_Remove, hprev, hnext]
      refine ⟨hndab, ?_, ?_, ?_, ?_⟩
      · rw [hnum, hcount]; simp
      · rw [hNhead]; rfl
      · rw [hNtail, htail]
        simp
      · rw [hNhead, hNtail]
        simp only [List.nil_append]
        rw [dllseg_cons_iff]
        refine ⟨rfl, hNb_prev, ?_⟩
        rw [hNb_next]
        exact dllseg_congr hNz hbs2
  · -- x has a predecessor t (the last element of as)
    rw [List.concat_eq_append] at has
    subst has
    obtain ⟨l2, n2, hseg1a, hseg1b⟩ := dllseg_split hseg1
    rw [dllseg_cons_iff, dllseg_nil_iff] at hseg1b
    obtain ⟨hn2, ht_prev, ht_next, hl1⟩ := hseg1b
    rw [hn1] at ht_next
    rw [hn2] at hseg1a
    have hprev : (s.links x).prevObject = some t := by rw [hpx, hl1]
    have htas : t ∈ as2 ++ [t] := by simp
    have htx : t ≠ x := fun he => hxa (he ▸ htas)
    have htas2 : t ∉ as2 := by
      have := (List.nodup_append.mp hnda).2.2
      exact fun h2 => this h2 (by simp)
    cases bs with
    | nil =>
      -- x is the tail, with predecessor t
      rw [dllseg_nil_iff] at hbs
      obtain ⟨hnext, htailx⟩ := hbs
      have hNt_prev : ((List_Remove s x).links t).prevObject = l2 := by
        simp [List_Remove, hprev, hnext, setLink, htx]
        exact ht_prev
      have hNt_next : ((List_Remove s x).links t).nextObject = none := by
        simp [List_Remove, hprev, hnext, setLink, htx]
      have hNz : ∀ z ∈ as2, (List_Remove s x).links z = s.links z := by
        intro z hz
        have hzt : z ≠ t := fun he => htas2 (he ▸ hz)
        have hzx : z ≠ x := fun he => hxa (by simp [he ▸ hz])
        simp [List_Remove, hprev, hnext, setLink, hzt, hzx]
      have hNhead : (List_Remove s x).list.headObject = s.list.headObject := by
        simp [List_Remove, hprev, hnext]
      have hNtail : (List_Remove s x).list.tailObject = some t := by
        simp [List_Remove, hprev, hnext]
      rw [List.append_nil]
      refine ⟨hnda, ?_, ?_, ?_, ?_⟩
      · rw [hnum, hcount]; simp
      · rw [hNhead, hhead, head?_append_left (as2 ++ [t]) [x] (by simp)]
      · rw [hNtail, List.getLast?_concat]
      · rw [hNhead, hNtail]
        have e1 : dllseg (List_Remove s x).links none s.list.headObject l2 (some t) as2 :=
          dllseg_congr hNz hseg1a
        have e2 : dllseg (List_Remove s x).links l2 (some t) (some t) none [t] :=
          dllseg_singleton hNt_prev hNt_next
        exact dllseg_append e1 e2
    | cons b bs2 =>
      -- x is interior: predecessor t, successor b
      rw [dllseg_cons_iff] at hbs
      obtain ⟨hnext, hb_prev, hbs2⟩ := hbs
      have hbbs : b ∈ b :: bs2 := by simp
      have hbx : b ≠ x := fun he => hxb (he ▸ hbbs)
      have hbbs2 : b ∉ bs2 := (List.nodup_cons.mp hndb).1
      have htb : t ≠ b := fun he => hdisj htas (he ▸ hbbs)
      have hNt_prev : ((List_Remove s x).links t).prevObject = l2 := by
        simp [List_Remove, hprev, hnext, setLink, htx, htb]
        exact ht_prev
      have hNt_next : ((List_Remove s x).links t).nextObject = some b := by
        simp [List_Remove, hprev, hnext, setLink, htx, htb]
      have hNb_prev : ((List_Remove s x).links b).prevObject = some t := by
        simp [List_Remove, hprev, hnext, setLink, hbx, Ne.symm htb]
      have hNb_next : ((List_Remove s x).links b).nextObject = (s.links b).nextObject := by
        simp [List_Remove, hprev, hnext, setLink, hbx, Ne.symm htb]
      have hNz : ∀ z ∈ as2, (List_Remove s x).links z = s.links z := by
        intro z hz
        have hzt : z ≠ t := fun he => htas2 (he ▸ hz)
        have hzx : z ≠ x := fun he => hxa (by simp [he ▸ hz])
        have hzb : z ≠ b := by
          intro he
          subst he
          exact hdisj (List.mem_append_left _ hz) (by simp)
        simp [List_Remove, hprev, hnext, setLink, hzt, hzx, hzb]
      have hNz2 : ∀ z ∈ bs2, (List_Remove s x).links z = s.links z := by
        intro z hz
        have hzb : z ≠ b := fun he => hbbs2 (he ▸ hz)
        have hzx : z ≠ x := fun he => hxb (by simp [he ▸ hz])
        have hzt : z ≠ t := by
          intro he
          subst he
          exact hdisj htas (by simp [hz])
        simp [List_Remove, hprev, hnext, setLink, hzt, hzx, hzb]
      have hNhead : (List_Remove s x).list.headObject = s.list.headObject := by
        simp [List_Remove, hprev, hnext]
      have hNtail : (List_Remove s x).list.tailObject = s.list.tailObject := by
        simp [List_Remove, hprev, hnext]
      refine ⟨hndab, ?_, ?_, ?_, ?_⟩
      · rw [hnum, hcount]; simp
      · rw [hNhead, hhead, head?_append_left (as2 ++ [t]) (x :: b :: bs2) (by simp),
            head?_append_left (as2 ++ [t]) (b :: bs2) (by simp)]
      · rw [hNtail, htail, getLast?_append_right (as2 ++ [t]) (x :: b :: bs2) (by simp),
            getLast?_append_right (as2 ++ [t]) (b :: bs2) (by simp)]
        simp
      · rw [hNhead, hNtail]
        have e1 : dllseg (List_Remove s x).links none s.list.headObject l2 (some t) as2 :=
          dllseg_congr hNz hseg1a
        have e2 : dllseg (List_Remove s x).links l2 (some t) (some t) (some b) [t] :=
          dllseg_singleton hNt_prev hNt_next
        have e3 : dllseg (List_Remove s x).links (some t) (some b) s.list.tailObject none (b :: bs2) := by
          rw [dllseg_cons_iff]
          refine ⟨rfl, hNb_prev, ?_⟩
          rw [hNb_next]
          exact dllseg_congr hNz2 hbs2
        exact dllseg_append (dllseg_append e1 e2) e3

theorem List_Remove_links_self (s : ListWorld) (x : Nat) :
    (List_Remove s x).links x = ⟨none, none⟩ := by
  simp [List_Remove, setLink]

/-- Every state reachable by valid append/remove sequences satisfies the
representation invariant. -/
theorem Reach_ListRepr {s : ListWorld} {xs : List Nat} (h : Reach s xs) :
    ListRepr s xs := by
  induction h with
  | init links0 off =>
    exact ⟨List.nodup_nil, rfl, rfl, rfl, dllseg_nil_iff.mpr ⟨rfl, rfl⟩⟩
  | append y hr hy ih => exact ListRepr_append ih hy
  | remove x hr hx ih => exact ListRepr_remove ih hx

/-- Concrete link map for witness states: every object starts unlinked. -/
def demoLinks : Nat → Link := fun _ => ⟨none, none⟩

/-! ## Claim theorems about the intrusive list -/

/-- C1: for every valid sequence of `List_Append`/`List_Remove` operations
(each append of a non-linked object, each remove of a member), `numObjects`
equals the number of currently linked objects, and forward traversal from
`headObject` via the embedded `next` references visits exactly those objects
in append order with removed objects absent and relative order preserved
(`xs` is that sequence by construction of `Reach`). -/
theorem list_count_and_traversal {s : ListWorld} {xs : List Nat}
    (h : Reach s xs) : s.list.numObjects = xs.length ∧ traverse s = xs := by
  obtain ⟨hnd, hcount, hhead, htail, hseg⟩ := Reach_ListRepr h
  refine ⟨hcount, ?_⟩
  show traverseAux s.links s.list.numObjects s.list.headObject = xs
  rw [hcount]
  exact traverseAux_of_dllseg hseg

theorem list_count_and_traversal_witness :
    (List_Append (initList demoLinks 8) 5).list.numObjects = [5].length ∧
      traverse (List_Append (initList demoLinks 8) 5) = [5] :=
  list_count_and_traversal
    (Reach.append 5 (Reach.init demoLinks 8) (by simp))

/-- C2: invariants of every reachable list state: the traversal visits
pairwise-distinct objects (acyclicity), head and tail are null exactly when
the count is zero, and following `next` from `headObject` exactly
`numObjects` times reaches null. -/
theorem list_invariant_acyclic {s : ListWorld} {xs : List Nat}
    (h : Reach s xs) :
    (traverse s).Nodup ∧
    (s.list.headObject = none ↔ s.list.numObjects = 0) ∧
    (s.list.tailObject = none ↔ s.list.numObjects = 0) ∧
    iterNext s.links s.list.numObjects s.list.headObject = none := by
  obtain ⟨hnd, hcount, hhead, htail, hseg⟩ := Reach_ListRepr h
  have htr : traverse s = xs := by
    show traverseAux s.links s.list.numObjects s.list.headObject = xs
    rw [hcount]
    exact traverseAux_of_dllseg hseg
  refine ⟨htr ▸ hnd, ?_, ?_, ?_⟩
  · rw [hhead, hcount]
    simp [List.head?_eq_none_iff, List.length_eq_zero]
  · rw [htail, hcount]
    simp [List.getLast?_eq_none_iff, List.length_eq_zero]
  · rw [hcount]
    exact iterNext_of_dllseg hseg

theorem list_invariant_acyclic_witness :
    (traverse (List_Append (initList demoLinks 8) 7)).Nodup ∧
    ((List_Append (initList demoLinks 8) 7).list.headObject = none ↔
      (List_Append (initList demoLinks 8) 7).list.numObjects = 0) ∧
    ((List_Append (initList demoLinks 8) 7).list.tailObject = none ↔
      (List_Append (initList demoLinks 8) 7).list.numObjects = 0) ∧
    iterNext (List_Append (initList demoLinks 8) 7).links
      (List_Append (initList demoLinks 8) 7).list.numObjects
      (List_Append (initList demoLinks 8) 7).list.headObject = none :=
  list_invariant_acyclic
    (Reach.append 7 (Reach.init demoLinks 8) (by simp))

/-- C9: removal of a current member never underflows the count: whenever
`List_Remove` is called on a member of a reachable list state, the count is
at least one, and the decrement is an exact decrement by one (no wrap of the
unsigned representation). -/
theorem remove_count_no_underflow {s : ListWorld} {xs : List Nat} {x : Nat}
    (h : Reach s xs) (hx : x ∈ xs) :
    1 ≤ s.list.numObjects ∧
      (List_Remove s x).list.numObjects + 1 = s.list.numObjects := by
  obtain ⟨-, hcount, -, -, -⟩ := Reach_ListRepr h
  have hpos : 0 < xs.length := List.length_pos.mpr (List.ne_nil_of_mem hx)
  constructor
  · rw [hcount]
    exact hpos
  · have hnum : (List_Remove s x).list.numObjects = s.list.numObjects - 1 := by
      simp [List_Remove]
    rw [hnum, hcount]
    omega

theorem remove_count_no_underflow_witness :
    1 ≤ (List_Append (initList demoLinks 8) 3).list.numObjects ∧
      (List_Remove (List_Append (initList demoLinks 8) 3) 3).list.numObjects + 1 =
        (List_Append (initList demoLinks 8) 3).list.numObjects :=
  remove_count_no_underflow
    (Reach.append 3 (Reach.init demoLinks 8) (by simp)) (by simp)

/-- C3: pointer-level effect of `List_Append`: the appended object's
previous pointer becomes the former tail (none when the list was empty), the
former tail's next pointer (when one existed) becomes the object, the head
pointer is set to the object exactly when the list was empty (and is
untouched otherwise), the tail pointer becomes the object, and the count is
incremented by one. -/
theorem List_Append_effect (s : ListWorld) (y : Nat) :
    ((List_Append s y).links y).prevObject = s.list.tailObject ∧
    (∀ t, s.list.tailObject = some t →
      ((List_Append s y).links t).nextObject = some y) ∧
    (s.list.tailObject = none → (List_Append s y).list.headObject = some y) ∧
    (s.list.tailObject ≠ none →
      (List_Append s y).list.headObject = s.list.headObject) ∧
    (List_Append s y).list.tailObject = some y ∧
    (List_Append s y).list.numObjects = s.list.numObjects + 1 := by
  rcases htl : s.list.tailObject with _ | t
  · refine ⟨?_, ?_, ?_, ?_, ?_, ?_⟩ <;> simp [List_Append, htl, setLink]
  · by_cases hyt : y = t
    · subst hyt
      refine ⟨?_, ?_, ?_, ?_, ?_, ?_⟩ <;> simp [List_Append, htl, setLink]
    · refine ⟨?_, ?_, ?_, ?_, ?_, ?_⟩ <;> simp [List_Append, htl, setLink, hyt]

theorem List_Append_effect_witness :
    ((List_Append (List_Append (initList demoLinks 8) 1) 2).links 1).nextObject = some 2 ∧
    (List_Append (List_Append (initList demoLinks 8) 1) 2).list.tailObject = some 2 :=
  ⟨(List_Append_effect (List_Append (initList demoLinks 8) 1) 2).2.1 1 rfl,
   (List_Append_effect (List_Append (initList demoLinks 8) 1) 2).2.2.2.2.1⟩

/-- C4: pointer-level effect of `List_Remove` on a current member: the
member's embedded link is cleared, the count is decremented by exactly one,
the neighbors are spliced together (the predecessor's next pointer becomes
the member's next pointer and vice versa), the head/tail pointers are
updated exactly when the member was the head/tail, and removing the sole
element leaves both head and tail null. -/
theorem List_Remove_effect {s : ListWorld} {xs : List Nat} {x : Nat}
    (h : ListRepr s xs) (hx : x ∈ xs) :
    (List_Remove s x).links x = ⟨none, none⟩ ∧
    (List_Remove s x).list.numObjects + 1 = s.list.numObjects ∧
    (∀ p, (s.links x).prevObject = some p →
      ((List_Remove s x).links p).nextObject = (s.links x).nextObject) ∧
    (∀ nx, (s.links x).nextObject = some nx →
      ((List_Remove s x).links nx).prevObject = (s.links x).prevObject) ∧
    ((s.links x).prevObject = none →
      (List_Remove s x).list.headObject = (s.links x).nextObject) ∧
    ((s.links x).prevObject ≠ none →
      (List_Remove s x).list.headObject = s.list.headObject) ∧
    ((s.links x).nextObject = none →
      (List_Remove s x).list.tailObject = (s.links x).prevObject) ∧
    ((s.links x).nextObject ≠ none →
      (List_Remove s x).list.tailObject = s.list.tailObject) ∧
    (xs = [x] → (List_Remove s x).list.headObject = none ∧
      (List_Remove s x).list.tailObject = none) := by
  obtain ⟨hnd, hcount, hhead, htail, hseg⟩ := h
  obtain ⟨as, bs, hxs⟩ := List.append_of_mem hx
  subst hxs
  have hnd0 := hnd
  rw [List.nodup_middle, List.nodup_cons] at hnd0
  obtain ⟨hxab, hndab⟩ := hnd0
  have hxa : x ∉ as := fun h2 => hxab (List.mem_append_left _ h2)
  have hxb : x ∉ bs := fun h2 => hxab (List.mem_append_right _ h2)
  have hdisj : as.Disjoint bs := (List.nodup_append.mp hndab).2.2
  have hcnt : (List_Remove s x).list.numObjects + 1 = s.list.numObjects := by
    have hnum : (List_Remove s x).list.numObjects = s.list.numObjects - 1 := by
      simp [List_Remove]
    rw [hnum, hcount]
    simp only [List.length_append, List.length_cons]
    omega
  obtain ⟨l1, n1, hseg1, hseg2⟩ := dllseg_split hseg
  rw [dllseg_cons_iff] at hseg2
  obtain ⟨hn1, hpx, hbs⟩ := hseg2
  rcases List.eq_nil_or_concat as with hae | ⟨as2, t, has⟩
  · subst hae
    rw [dllseg_nil_iff] at hseg1
    obtain ⟨hheadx, hl1⟩ := hseg1
    have hprev : (s.links x).prevObject = none := by rw [hpx, hl1]
    cases bs with
    | nil =>
      rw [dllseg_nil_iff] at hbs
      obtain ⟨hnext, htailx⟩ := hbs
      refine ⟨?_, hcnt, ?_, ?_, ?_, ?_, ?_, ?_, ?_⟩ <;>
        simp [List_Remove, hprev, hnext, setLink]
    | cons b bs2 =>
      rw [dllseg_cons_iff] at hbs
      obtain ⟨hnext, hb_prev, hbs2⟩ := hbs
      have hbx : b ≠ x := fun he => hxb (by simp [he])
      refine ⟨?_, hcnt, ?_, ?_, ?_, ?_, ?_, ?_, ?_⟩
      · simp [List_Remove, hprev, hnext, setLink]
      · simp [hprev]
      · intro nx hnx
        rw [hnext] at hnx
        obtain hnx2 := Option.some_inj.mp hnx
        subst hnx2
        rw [hprev]
        simp [List_Remove, hprev, hnext, setLink, hbx]
      · simp [List_Remove, hprev, hnext]
      · simp [hprev]
      · simp [List_Remove, hprev, hnext]
      · simp [List_Remove, hprev, hnext]
      · intro he
        have hlen := congrArg List.length he
        simp only [List.length_append, List.length_cons, List.length_nil] at hlen
        omega
  · rw [List.concat_eq_append] at has
    subst has
    obtain ⟨l2, n2, hseg1a, hseg1b⟩ := dllseg_split hseg1
    rw [dllseg_cons_iff, dllseg_nil_iff] at hseg1b
    obtain ⟨hn2, ht_prev, ht_next, hl1⟩ := hseg1b
    have hprev : (s.links x).prevObject = some t := by rw [hpx, hl1]
    have htas : t ∈ as2 ++ [t] := by simp
    have htx : t ≠ x := fun he => hxa (he ▸ htas)
    cases bs with
    | nil =>
      rw [dllseg_nil_iff] at hbs
      obtain ⟨hnext, htailx⟩ := hbs
      refine ⟨?_, hcnt, ?_, ?_, ?_, ?_, ?_, ?_, ?_⟩
      · simp [List_Remove, hprev, hnext, setLink]
      · intro p hp
        rw [hprev] at hp
        obtain hp2 := Option.some_inj.mp hp
        subst hp2
        rw [hnext]
        simp [List_Remove, hprev, hnext, setLink, htx]
      · simp [hnext]
      · simp [List_Remove, hprev, hnext]
      · simp [List_Remove, hprev, hnext]
      · simp [List_Remove, hprev, hnext]
      · simp [hnext]
      · intro he
        have hlen := congrArg List.length he
        simp only [List.length_append, List.length_cons, List.length_nil] at hlen
        omega
    | cons b bs2 =>
      rw [dllseg_cons_iff] at hbs
      obtain ⟨hnext, hb_prev, hbs2⟩ := hbs
      have hbbs : b ∈ b :: bs2 := by simp
      have hbx : b ≠ x := fun he => hxb (he ▸ hbbs)
      have htb : t ≠ b := fun he => hdisj htas (he ▸ hbbs)
      refine ⟨?_, hcnt, ?_, ?_, ?_, ?_, ?_, ?_, ?_⟩
      · simp [List_Remove, hprev, hnext, setLink]
      · intro p hp
        rw [hprev] at hp
        obtain hp2 := Option.some_inj.mp hp
        subst hp2
        rw [hnext]
        simp [List_Remove, hprev, hnext, setLink, htx, htb]
      · intro nx hnx
        rw [hnext] at hnx
        obtain hnx2 := Option.some_inj.mp hnx
        subst hnx2
        rw [hprev]
        simp [List_Remove, hprev, hnext, setLink, hbx, Ne.symm htb]
      · simp [hprev]
      · simp [List_Remove, hprev, hnext]
      · simp [hnext]
      · simp [List_Remove, hprev, hnext]
      · intro he
        have hlen := congrArg List.length he
        simp only [List.length_append, List.length_cons, List.length_nil] at hlen
        omega

theorem List_Remove_effect_witness :
    (List_Remove (List_Append (initList demoLinks 8) 6) 6).links 6 = ⟨none, none⟩ ∧
    (List_Remove (List_Append (initList demoLinks 8) 6) 6).list.headObject = none ∧
    (List_Remove (List_Append (initList demoLinks 8) 6) 6).list.tailObject = none :=
  ⟨(List_Remove_effect
      (Reach_ListRepr (Reach.append 6 (Reach.init demoLinks 8) (by simp)))
      (by simp)).1,
   (List_Remove_effect
      (Reach_ListRepr (Reach.append 6 (Reach.init demoLinks 8) (by simp)))
      (by simp)).2.2.2.2.2.2.2.2 rfl⟩

theorem Reach_foldl_append :
    ∀ (ys : List Nat) {s : ListWorld} {xs : List Nat},
      Reach s xs → (xs ++ ys).Nodup → Reach (ys.foldl List_Append s) (xs ++ ys) := by
  intro ys
  induction ys with
  | nil =>
    intro s xs h hn
    simpa using h
  | cons y ys ih =>
    intro s xs h hn
    have hn0 := hn
    rw [List.nodup_middle, List.nodup_cons] at hn0
    have hy : y ∉ xs := fun h2 => hn0.1 (List.mem_append_left _ h2)
    have h1 : Reach (List_Append s y) (xs ++ [y]) := Reach.append y h hy
    have hn1 : ((xs ++ [y]) ++ ys).Nodup := by
      rw [List.append_assoc]
      exact hn
    have h2 := ih h1 hn1
    rw [show xs ++ y :: ys = (xs ++ [y]) ++ ys by rw [List.append_assoc]; rfl]
    exact h2

theorem Reach_foldl_remove :
    ∀ (zs : List Nat) {s : ListWorld} {xs : List Nat},
      Reach s xs → xs.Perm zs → Reach (zs.foldl List_Remove s) [] := by
  intro zs
  induction zs with
  | nil =>
    intro s xs h hp
    have he : xs = [] := List.perm_nil.mp hp
    subst he
    simpa using h
  | cons z zs ih =>
    intro s xs h hp
    have hz : z ∈ xs := hp.mem_iff.mpr (by simp)
    have h1 : Reach (List_Remove s z) (xs.erase z) := Reach.remove z h hz
    have hp1 : (xs.erase z).Perm zs :=
      ((List.cons_perm_iff_perm_erase.mp hp.symm).2).symm
    exact ih h1 hp1

/-- C8: appending any number of distinct objects to a fresh list and then
removing all of them, in any order (`zs` a permutation of `ys`), leaves the
list empty: head and tail are null and the count is zero. -/
theorem append_then_remove_all_empty (ys zs : List Nat) (links0 : Nat → Link)
    (off : Nat) (hnd : ys.Nodup) (hperm : ys.Perm zs) :
    (zs.foldl List_Remove (ys.foldl List_Append (initList links0 off))).list.headObject = none ∧
    (zs.foldl List_Remove (ys.foldl List_Append (initList links0 off))).list.tailObject = none ∧
    (zs.foldl List_Remove (ys.foldl List_Append (initList links0 off))).list.numObjects = 0 := by
  have h0 : Reach (initList links0 off) [] := Reach.init links0 off
  have h1 : Reach (ys.foldl List_Append (initList links0 off)) ([] ++ ys) :=
    Reach_foldl_append ys h0 (by simpa using hnd)
  rw [List.nil_append] at h1
  have h2 : Reach (zs.foldl List_Remove (ys.foldl List_Append (initList links0 off))) [] :=
    Reach_foldl_remove zs h1 hperm
  obtain ⟨-, hcount, hhead, htail, -⟩ := Reach_ListRepr h2
  exact ⟨hhead, htail, hcount⟩

theorem append_then_remove_all_empty_witness :
    ([2, 1].foldl List_Remove ([1, 2].foldl List_Append (initList demoLinks 8))).list.headObject = none ∧
    ([2, 1].foldl List_Remove ([1, 2].foldl List_Append (initList demoLinks 8))).list.tailObject = none ∧
    ([2, 1].foldl List_Remove ([1, 2].foldl List_Append (initList demoLinks 8))).list.numObjects = 0 :=
  append_then_remove_all_empty [1, 2] [2, 1] demoLinks 8 (by simp)
    (List.Perm.swap 2 1 [])

/-! ## The `EGG::Heap` / `EGG::Disposer` world -/

/-- Layout of `EGG::Heap` (src/include/egg/core/eggHeap.h lines 17-42): the children
intrusive list header `mChildren`, surrounded by opaque byte regions
(`u8 _00[...]` before it and `u8 _30[...]` after it, the region descriptor
and other unspecified state). -/
structure HeapSt where
  pad00 : List Nat
  mChildren : UtList
  pad30 : List Nat

/-- Layout of `EGG::Disposer` (src/include/egg/core/eggDisposer.h lines 11-20): the
back-reference `Heap *mHeap` (null allowed) and the embedded
`nw4r::ut::Link mLink`. -/
structure DisposerSt where
  mHeap : Option Nat
  mLink : Link

/-- Global state: all heaps and all disposers, addressed by identifiers. -/
structure World where
  heaps : Nat → HeapSt
  disposers : Nat → DisposerSt

/-- The list state a heap's `mChildren` operations act on: the header stored
in the heap and the link fields embedded in the disposers. -/
def heapListWorld (w : World) (h : Nat) : ListWorld :=
  { list := (w.heaps h).mChildren, links := fun d => (w.disposers d).mLink }

/-- Write back a list state produced by a list operation on heap `h`: the
header goes to `h`'s `mChildren`, the link map to the disposers' embedded
links. -/
def setHeapList (w : World) (h : Nat) (s : ListWorld) : World :=
  { heaps := fun h2 =>
      if h2 = h then { w.heaps h2 with mChildren := s.list } else w.heaps h2,
    disposers := fun d => { w.disposers d with mLink := s.links d } }

/-- Source: `Heap::appendDisposer` (src/include/egg/core/eggHeap.h lines 20-23):
forwards to `nw4r::ut::List_Append(&mChildren, disposer)`. -/
def appendDisposer (w : World) (h : Nat) (d : Nat) : World :=
  setHeapList w h (List_Append (heapListWorld w h) d)

/-- Source: `Heap::removeDisposer` (src/include/egg/core/eggHeap.h lines 25-28):
forwards to `nw4r::ut::List_Remove(&mChildren, disposer)`. -/
def removeDisposer (w : World) (h : Nat) (d : Nat) : World :=
  setHeapList w h (List_Remove (heapListWorld w h) d)

/-- Write a disposer's back-reference field. -/
def setHeapRef (w : World) (d : Nat) (h : Option Nat) : World :=
  { w with
    disposers := fun e =>
      if e = d then { w.disposers e with mHeap := h } else w.disposers e }

/-- Modelled from the spec: the `Disposer` constructor (declared at
src/include/egg/core/eggDisposer.h line 14, body not in src/).  §4.2: given
an identified target heap it records the back-reference and appends itself
to that heap's children list; with no identified heap it holds a null
back-reference and never joins a list. -/
def Disposer_construct (w : World) (d : Nat) (target : Option Nat) : World :=
  match target with
  | none => setHeapRef w d none
  | some h => appendDisposer (setHeapRef w d (some h)) h d

/-- Modelled from the spec: the `Disposer` destructor (declared at
src/include/egg/core/eggDisposer.h line 15, body not in src/).  §4.2: if the
back-reference is non-null, removes itself from the owning heap's list. -/
def Disposer_destruct (w : World) (d : Nat) : World :=
  match (w.disposers d).mHeap with
  | none => w
  | some h => removeDisposer w h d

/-- Representation invariant of a heap's children list. -/
def HeapRepr (w : World) (h : Nat) (xs : List Nat) : Prop :=
  ListRepr (heapListWorld w h) xs

/-- Modelled from the spec: the heap teardown walk (§4.3; the `Heap`
destructor is not in src/): repeatedly re-read the current head of the
children list and dispose it (each disposal modelled as the head disposer's
destructor) until the list is empty; the fuel bounds the loop.  Returns the
final world and the list of disposed objects in disposal order. -/
def teardownAux (h : Nat) : Nat → World → World × List Nat
  | 0, w => (w, [])
  | fuel + 1, w =>
    match (w.heaps h).mChildren.headObject with
    | none => (w, [])
    | some d =>
      let r := teardownAux h fuel (Disposer_destruct w d)
      (r.1, d :: r.2)

/-- Modelled from the spec: destroying heap `h` runs the pop-and-dispose
loop; the count bounds the number of iterations. -/
def Heap_destroy (w : World) (h : Nat) : World × List Nat :=
  teardownAux h ((w.heaps h).mChildren.numObjects) w

theorem heapListWorld_setHeapList (w : World) (h : Nat) (s : ListWorld) :
    heapListWorld (setHeapList w h s) h = s := by
  simp [heapListWorld, setHeapList]

theorem heapListWorld_setHeapRef (w : World) (d : Nat) (hh : Option Nat)
    (h : Nat) : heapListWorld (setHeapRef w d hh) h = heapListWorld w h := by
  unfold heapListWorld setHeapRef
  congr 1
  funext e
  by_cases he : e = d <;> simp [he]

/-- C5: the `Disposer` lifecycle contract.  Construction with an identified
target heap records the back-reference and appends the disposer to that
heap's children list; construction with no identified heap leaves the
back-reference null and changes no heap and no embedded link; destruction
removes the disposer from the owning heap's children list exactly when the
back-reference is non-null, and is a no-op when it is null. -/
theorem Disposer_lifecycle {w : World} {h : Nat} {xs : List Nat} (d : Nat)
    (hrep : HeapRepr w h xs) (hd : d ∉ xs) :
    (((Disposer_construct w d (some h)).disposers d).mHeap = some h ∧
      HeapRepr (Disposer_construct w d (some h)) h (xs ++ [d])) ∧
    (((Disposer_construct w d none).disposers d).mHeap = none ∧
      (∀ h2, (Disposer_construct w d none).heaps h2 = w.heaps h2) ∧
      (∀ e, ((Disposer_construct w d none).disposers e).mLink =
        (w.disposers e).mLink)) ∧
    (∀ e, e ∈ xs → (w.disposers e).mHeap = some h →
      Disposer_destruct w e = removeDisposer w h e ∧
      HeapRepr (Disposer_destruct w e) h (xs.erase e)) ∧
    ((w.disposers d).mHeap = none → Disposer_destruct w d = w) := by
  refine ⟨⟨?_, ?_⟩, ⟨?_, ?_, ?_⟩, ?_, ?_⟩
  · simp [Disposer_construct, appendDisposer, setHeapList, setHeapRef]
  · show ListRepr
      (heapListWorld (appendDisposer (setHeapRef w d (some h)) h d) h) (xs ++ [d])
    unfold appendDisposer
    rw [heapListWorld_setHeapList, heapListWorld_setHeapRef]
    exact ListRepr_append hrep hd
  · simp [Disposer_construct, setHeapRef]
  · intro h2
    simp [Disposer_construct, setHeapRef]
  · intro e
    by_cases he : e = d <;> simp [Disposer_construct, setHeapRef, he]
  · intro e hme hmh
    have hde : Disposer_destruct w e = removeDisposer w h e := by
      simp [Disposer_destruct, hmh]
    refine ⟨hde, ?_⟩
    rw [hde]
    show ListRepr (heapListWorld (removeDisposer w h e) h) (xs.erase e)
    unfold removeDisposer
    rw [heapListWorld_setHeapList]
    exact ListRepr_remove hrep hme
  · intro hmh
    simp [Disposer_destruct, hmh]

/-- Concrete world for witnesses: every heap empty, every disposer unlinked
with a null back-reference. -/
def demoWorld : World :=
  { heaps := fun _ => ⟨[], ⟨none, none, 0, 8⟩, []⟩,
    disposers := fun _ => ⟨none, ⟨none, none⟩⟩ }

theorem demoHeapRepr : HeapRepr demoWorld 0 [] :=
  ⟨by simp, rfl, rfl, rfl, dllseg_nil_iff.mpr ⟨rfl, rfl⟩⟩

theorem Disposer_lifecycle_witness :
    ((Disposer_construct demoWorld 3 (some 0)).disposers 3).mHeap = some 0 ∧
    Disposer_destruct demoWorld 3 = demoWorld :=
  ⟨(Disposer_lifecycle 3 demoHeapRepr (by simp)).1.1,
   (Disposer_lifecycle 3 demoHeapRepr (by simp)).2.2.2 rfl⟩

/-- C10: `Heap::appendDisposer` and `Heap::removeDisposer` modify only the
target heap's `mChildren` field: the opaque byte regions before and after
`mChildren` of every heap, every other heap's state entirely, and every
disposer's `mHeap` back-reference are unchanged. -/
theorem heapDisposerOps_frame (w : World) (h d : Nat) :
    (∀ h2, ((appendDisposer w h d).heaps h2).pad00 = (w.heaps h2).pad00 ∧
      ((appendDisposer w h d).heaps h2).pad30 = (w.heaps h2).pad30) ∧
    (∀ h2, h2 ≠ h → (appendDisposer w h d).heaps h2 = w.heaps h2) ∧
    (∀ e, ((appendDisposer w h d).disposers e).mHeap = (w.disposers e).mHeap) ∧
    (∀ h2, ((removeDisposer w h d).heaps h2).pad00 = (w.heaps h2).pad00 ∧
      ((removeDisposer w h d).heaps h2).pad30 = (w.heaps h2).pad30) ∧
    (∀ h2, h2 ≠ h → (removeDisposer w h d).heaps h2 = w.heaps h2) ∧
    (∀ e, ((removeDisposer w h d).disposers e).mHeap = (w.disposers e).mHeap) := by
  refine ⟨?_, ?_, ?_, ?_, ?_, ?_⟩
  · intro h2
    by_cases hh : h2 = h <;> simp [appendDisposer, setHeapList, hh]
  · intro h2 hh
    simp [appendDisposer, setHeapList, hh]
  · intro e
    simp [appendDisposer, setHeapList]
  · intro h2
    by_cases hh : h2 = h <;> simp [removeDisposer, setHeapList, hh]
  · intro h2 hh
    simp [removeDisposer, setHeapList, hh]
  · intro e
    simp [removeDisposer, setHeapList]

theorem heapDisposerOps_frame_witness :
    (appendDisposer demoWorld 0 1).heaps 1 = demoWorld.heaps 1 ∧
    ((removeDisposer demoWorld 0 1).disposers 2).mHeap = none :=
  ⟨(heapDisposerOps_frame demoWorld 0 1).2.1 1 (by decide),
   (heapDisposerOps_frame demoWorld 0 1).2.2.2.2.2 2⟩

/-! ## Heap teardown -/

theorem setHeapList_mHeap (w : World) (h : Nat) (s : ListWorld) (e : Nat) :
    ((setHeapList w h s).disposers e).mHeap = (w.disposers e).mHeap := rfl

theorem setHeapList_heaps_ne (w : World) (h : Nat) (s : ListWorld) {h2 : Nat}
    (hh : h2 ≠ h) : (setHeapList w h s).heaps h2 = w.heaps h2 := by
  simp [setHeapList, hh]

/-- A member's neighbor pointers stay inside the list (or are null). -/
theorem ListRepr_neighbors {s : ListWorld} {xs : List Nat} {x : Nat}
    (h : ListRepr s xs) (hx : x ∈ xs) :
    ((s.links x).prevObject = none ∨
      ∃ t ∈ xs, (s.links x).prevObject = some t) ∧
    ((s.links x).nextObject = none ∨
      ∃ b ∈ xs, (s.links x).nextObject = some b) := by
  obtain ⟨hnd, hcount, hhead, htail, hseg⟩ := h
  obtain ⟨as, bs, hxs⟩ := List.append_of_mem hx
  subst hxs
  obtain ⟨l1, n1, hseg1, hseg2⟩ := dllseg_split hseg
  rw [dllseg_cons_iff] at hseg2
  obtain ⟨hn1, hpx, hbs⟩ := hseg2
  constructor
  · rcases List.eq_nil_or_concat as with hae | ⟨as2, t, has⟩
    · subst hae
      rw [dllseg_nil_iff] at hseg1
      exact Or.inl (by rw [hpx, hseg1.2])
    · rw [List.concat_eq_append] at has
      subst has
      obtain ⟨l2, n2, hseg1a, hseg1b⟩ := dllseg_split hseg1
      rw [dllseg_cons_iff, dllseg_nil_iff] at hseg1b
      refine Or.inr ⟨t, by simp, ?_⟩
      rw [hpx, hseg1b.2.2.2]
  · cases bs with
    | nil =>
      rw [dllseg_nil_iff] at hbs
      exact Or.inl hbs.1
    | cons b bs2 =>
      rw [dllseg_cons_iff] at hbs
      exact Or.inr ⟨b, by simp, hbs.1⟩

theorem List_Remove_links_other {s : ListWorld} {x z : Nat} (hzx : z ≠ x)
    (hzp : (s.links x).prevObject ≠ some z)
    (hzn : (s.links x).nextObject ≠ some z) :
    (List_Remove s x).links z = s.links z := by
  rcases hp : (s.links x).prevObject with _ | p <;>
    rcases hn : (s.links x).nextObject with _ | nx
  · simp [List_Remove, hp, hn, setLink, hzx]
  · have hznx : z ≠ nx := fun he => hzn (by rw [hn, he])
    simp [List_Remove, hp, hn, setLink, hzx, hznx]
  · have hzpp : z ≠ p := fun he => hzp (by rw [hp, he])
    simp [List_Remove, hp, hn, setLink, hzx, hzpp]
  · have hznx : z ≠ nx := fun he => hzn (by rw [hn, he])
    have hzpp : z ≠ p := fun he => hzp (by rw [hp, he])
    simp [List_Remove, hp, hn, setLink, hzx, hzpp, hznx]

theorem List_Remove_links_notmem {s : ListWorld} {xs : List Nat} {x z : Nat}
    (h : ListRepr s xs) (hx : x ∈ xs) (hz : z ∉ xs) :
    (List_Remove s x).links z = s.links z := by
  obtain ⟨hp, hn⟩ := ListRepr_neighbors h hx
  apply List_Remove_links_other
  · exact fun he => hz (he ▸ hx)
  · rcases hp with h0 | ⟨t, ht, h0⟩
    · rw [h0]
      simp
    · rw [h0]
      intro he
      exact hz (Option.some_inj.mp he ▸ ht)
  · rcases hn with h0 | ⟨b, hb, h0⟩
    · rw [h0]
      simp
    · rw [h0]
      intro he
      exact hz (Option.some_inj.mp he ▸ hb)

theorem removeDisposer_disposers_notmem {w : World} {h : Nat} {xs : List Nat}
    {x e : Nat} (hrep : HeapRepr w h xs) (hx : x ∈ xs) (he : e ∉ xs) :
    (removeDisposer w h x).disposers e = w.disposers e := by
  have hstep : (removeDisposer w h x).disposers e =
      { w.disposers e with
        mLink := (List_Remove (heapListWorld w h) x).links e } := rfl
  rw [hstep, List_Remove_links_notmem hrep hx he]
  rfl

theorem teardownAux_spec {h : Nat} :
    ∀ (xs : List Nat) (w : World),
      HeapRepr w h xs → (∀ d ∈ xs, (w.disposers d).mHeap = some h) →
      (teardownAux h xs.length w).2 = xs ∧
      HeapRepr (teardownAux h xs.length w).1 h [] ∧
      (∀ d ∈ xs,
        ((teardownAux h xs.length w).1.disposers d).mLink = ⟨none, none⟩) ∧
      (∀ e, e ∉ xs →
        (teardownAux h xs.length w).1.disposers e = w.disposers e) ∧
      (∀ h2, h2 ≠ h →
        (teardownAux h xs.length w).1.heaps h2 = w.heaps h2) := by
  intro xs
  induction xs with
  | nil =>
    intro w hrep hown
    exact ⟨rfl, hrep, by simp, fun e he => rfl, fun h2 hh => rfl⟩
  | cons x rest ih =>
    intro w hrep hown
    have hndx : x ∉ rest := by
      obtain ⟨hnd, -, -, -, -⟩ := hrep
      exact (List.nodup_cons.mp hnd).1
    have hheadx : (w.heaps h).mChildren.headObject = some x := by
      obtain ⟨-, -, hhead, -, -⟩ := hrep
      exact hhead
    have hmx : (w.disposers x).mHeap = some h := hown x (by simp)
    have hdes : Disposer_destruct w x = removeDisposer w h x := by
      simp [Disposer_destruct, hmx]
    have hrep1 : HeapRepr (removeDisposer w h x) h rest := by
      show ListRepr
        (heapListWorld (setHeapList w h (List_Remove (heapListWorld w h) x)) h) rest
      rw [heapListWorld_setHeapList]
      have h2 := ListRepr_remove hrep (show x ∈ x :: rest by simp)
      rwa [List.erase_cons_head] at h2
    have hown1 : ∀ d ∈ rest, ((removeDisposer w h x).disposers d).mHeap = some h := by
      intro d hd2
      show ((setHeapList w h _).disposers d).mHeap = some h
      rw [setHeapList_mHeap]
      exact hown d (by simp [hd2])
    obtain ⟨htr, hrepN, hclearN, hframeD, hframeH⟩ :=
      ih (removeDisposer w h x) hrep1 hown1
    have hred : teardownAux h (x :: rest).length w =
        ((teardownAux h rest.length (Disposer_destruct w x)).1,
          x :: (teardownAux h rest.length (Disposer_destruct w x)).2) := by
      simp [teardownAux, hheadx]
    rw [hred, hdes]
    refine ⟨by rw [htr], hrepN, ?_, ?_, ?_⟩
    · intro d hd2
      rcases List.mem_cons.mp hd2 with he | hd3
      · subst he
        rw [hframeD d hndx]
        exact List_Remove_links_self (heapListWorld w h) d
      · exact hclearN d hd3
    · intro e he
      have he2 : e ∉ rest := fun h2 => he (by simp [h2])
      rw [hframeD e he2]
      exact removeDisposer_disposers_notmem hrep (by simp) he
    · intro h2 hh
      rw [hframeH h2 hh]
      exact setHeapList_heaps_ne w h _ hh

/-- C6: destroying a heap with `K` live children (modelling each child's
destructor as its `Disposer` destructor, i.e. no nested disposals) performs
exactly `K` pop-and-dispose steps, each re-reading the current head:
the disposal sequence is exactly the children in FIFO append order, every
disposed `Disposer` is left unlinked, the children list is empty afterwards,
and no disposer outside the list is touched (so no teardown is invoked for
objects never linked to this heap). -/
theorem Heap_destroy_spec {w : World} {h : Nat} {xs : List Nat}
    (hrep : HeapRepr w h xs)
    (hown : ∀ d ∈ xs, (w.disposers d).mHeap = some h) :
    (Heap_destroy w h).2 = xs ∧
    ((Heap_destroy w h).1.heaps h).mChildren.headObject = none ∧
    ((Heap_destroy w h).1.heaps h).mChildren.tailObject = none ∧
    ((Heap_destroy w h).1.heaps h).mChildren.numObjects = 0 ∧
    (∀ d ∈ xs, ((Heap_destroy w h).1.disposers d).mLink = ⟨none, none⟩) ∧
    (∀ e, e ∉ xs → (Heap_destroy w h).1.disposers e = w.disposers e) := by
  have hcnt : (w.heaps h).mChildren.numObjects = xs.length := by
    obtain ⟨-, hcount, -, -, -⟩ := hrep
    exact hcount
  unfold Heap_destroy
  rw [hcnt]
  obtain ⟨htr, hrepN, hclear, hframeD, hframeH⟩ := teardownAux_spec xs w hrep hown
  obtain ⟨-, hcnt0, hhead0, htail0, -⟩ := hrepN
  exact ⟨htr, hhead0, htail0, hcnt0, hclear, hframeD⟩

theorem demoHeapRepr1 :
    HeapRepr (Disposer_construct demoWorld 5 (some 0)) 0 [5] := by
  show ListRepr
    (heapListWorld (appendDisposer (setHeapRef demoWorld 5 (some 0)) 0 5) 0) [5]
  unfold appendDisposer
  rw [heapListWorld_setHeapList, heapListWorld_setHeapRef]
  have h1 : ListRepr (heapListWorld demoWorld 0) [] := demoHeapRepr
  simpa using ListRepr_append h1 (by simp)

theorem Heap_destroy_spec_witness :
    (Heap_destroy (Disposer_construct demoWorld 5 (some 0)) 0).2 = [5] ∧
    ((Heap_destroy (Disposer_construct demoWorld 5 (some 0)) 0).1.heaps 0).mChildren.headObject = none ∧
    ((Heap_destroy (Disposer_construct demoWorld 5 (some 0)) 0).1.heaps 0).mChildren.numObjects = 0 :=
  ⟨(Heap_destroy_spec demoHeapRepr1 (by decide)).1,
   (Heap_destroy_spec demoHeapRepr1 (by decide)).2.1,
   (Heap_destroy_spec demoHeapRepr1 (by decide)).2.2.2.1⟩

/-! ## `Heap::findContainHeap` -/

/-- A heap's memory-region descriptor: base address and size. -/
structure Region where
  base : Nat
  size : Nat
  deriving Repr, DecidableEq

/-- Whether an address lies inside a region. -/
def regionContains (r : Region) (a : Nat) : Bool :=
  decide (r.base ≤ a ∧ a < r.base + r.size)

/-- Two regions are non-overlapping: no address lies in both. -/
def RegionsDisjoint (r1 r2 : Region) : Prop :=
  ∀ a, ¬(regionContains r1 a = true ∧ regionContains r2 a = true)

/-- Modelled from the spec: `Heap::findContainHeap` (declared at
src/include/egg/core/eggHeap.h line 30, body not in src/).  §4.3: given the
process-wide registry of currently live heaps (with their region
descriptors), return the heap whose region contains the address, or none if
no live heap contains it. -/
def findContainHeap (registry : List (Nat × Region)) (addr : Nat) : Option Nat :=
  (registry.find? (fun p => regionContains p.2 addr)).map Prod.fst

theorem findContainHeap_mem :
    ∀ (registry : List (Nat × Region)) (addr : Nat),
      registry.Pairwise (fun p q => RegionsDisjoint p.2 q.2) →
      ∀ hp r, (hp, r) ∈ registry → regionContains r addr = true →
        findContainHeap registry addr = some hp := by
  intro registry addr
  induction registry with
  | nil =>
    intro _ hp r hmem
    simp at hmem
  | cons q qs ih =>
    intro hdisj hp r hmem hc
    rw [List.pairwise_cons] at hdisj
    rcases List.mem_cons.mp hmem with he | hmem2
    · rw [← he]
      simp [findContainHeap, List.find?_cons_of_pos, hc]
    · have hq : regionContains q.2 addr = false := by
        rcases hqt : regionContains q.2 addr with _ | _
        · rfl
        · exact absurd ⟨hqt, hc⟩ (hdisj.1 (hp, r) hmem2 addr)
      have hstep : findContainHeap (q :: qs) addr = findContainHeap qs addr := by
        simp [findContainHeap, List.find?_cons_of_neg, hq]
      rw [hstep]
      exact ih hdisj.2 hp r hmem2 hc

/-- C7: `findContainHeap` contract over a correct registry of live heaps
with pairwise non-overlapping regions: it returns `none` (a valid "no heap
found" outcome) exactly when no live heap's region contains the address, and
whenever some live heap's region contains the address it returns that heap
(which the disjointness makes unique). -/
theorem findContainHeap_spec (registry : List (Nat × Region)) (addr : Nat)
    (hdisj : registry.Pairwise (fun p q => RegionsDisjoint p.2 q.2)) :
    (findContainHeap registry addr = none ↔
      ∀ p ∈ registry, regionContains p.2 addr = false) ∧
    (∀ hp r, (hp, r) ∈ registry → regionContains r addr = true →
      findContainHeap registry addr = some hp) := by
  constructor
  · simp only [findContainHeap, Option.map_eq_none', List.find?_eq_none,
      Bool.not_eq_true]
  · exact findContainHeap_mem registry addr hdisj

theorem demoRegistryDisjoint :
    List.Pairwise (fun p q => RegionsDisjoint p.2 q.2)
      [((1 : Nat), (⟨4096, 4096⟩ : Region)), (2, ⟨8192, 4096⟩)] := by
  rw [List.pairwise_cons]
  refine ⟨?_, by simp⟩
  intro p hp a hcon
  simp only [List.mem_singleton] at hp
  subst hp
  simp [regionContains] at hcon
  omega

theorem findContainHeap_spec_witness :
    (findContainHeap [(1, ⟨4096, 4096⟩), (2, ⟨8192, 4096⟩)] 9000 = none ↔
      ∀ p ∈ [((1 : Nat), (⟨4096, 4096⟩ : Region)), (2, ⟨8192, 4096⟩)],
        regionContains p.2 9000 = false) ∧
    findContainHeap [(1, ⟨4096, 4096⟩), (2, ⟨8192, 4096⟩)] 9000 = some 2 :=
  ⟨(findContainHeap_spec [(1, ⟨4096, 4096⟩), (2, ⟨8192, 4096⟩)] 9000
      demoRegistryDisjoint).1,
   (findContainHeap_spec [(1, ⟨4096, 4096⟩), (2, ⟨8192, 4096⟩)] 9000
      demoRegistryDisjoint).2 2 ⟨8192, 4096⟩ (by decide) (by decide)⟩
